import Mathlib

/-!
Verification of the home-feed delivery pipeline of a Go social-network
backend.  The definitions below are a shallow embedding of the relevant
source functions: the feed-cursor parsing and formatting of
`internal/service/user.go` (via models of `strconv.ParseInt`,
`strconv.ParseFloat`, `fmt.Sprintf` and `strings.Split` restricted to the
forms the code uses), the Redis-sorted-set feed cache of
`internal/cache`, the feed read service, the stream consumer and worker
manager of `internal/queue` / `internal/worker`, and the follow / post
write paths of `internal/service` and `internal/repository`.

Machine integers (`int64`) are embedded as `Int`; every value the code
can actually hold is within `int64` range, and the theorems that depend
on the range carry it as an explicit hypothesis.  `float64` scores are
embedded as exact rationals: all scores the system stores are whole-second
Unix timestamps, which `float64` represents exactly, so the rational
model agrees with the Go code on every reachable value.
-/

namespace FeedModel

/-! ### Decimal digits and models of Go strconv / fmt helpers -/

/-- One decimal digit, as classified by `strconv` (bytes `'0'..'9'`). -/
def isDigitCh (c : Char) : Bool := 48 ≤ c.toNat && c.toNat ≤ 57

/-- Every character of the list is a decimal digit. -/
def allDigits (cs : List Char) : Bool := cs.all isDigitCh

/-- Value of a decimal digit string (most significant digit first). -/
def digitsVal (cs : List Char) : Nat :=
  cs.foldl (fun a c => 10 * a + (c.toNat - 48)) 0

/-- Decimal representation of a natural number, as produced by Go's
`strconv.FormatInt` / `fmt.Sprintf("%d", ...)` for non-negative values. -/
def formatNat (n : Nat) : List Char :=
  if n < 10 then [Char.ofNat (48 + n)]
  else formatNat (n / 10) ++ [Char.ofNat (48 + n % 10)]
  decreasing_by exact Nat.div_lt_self (by omega) (by omega)

/-- Decimal representation of an integer, with a leading minus sign for
negative values, as produced by `strconv.FormatInt(i, 10)` and `%d`. -/
def formatInt (i : Int) : List Char :=
  if i < 0 then '-' :: formatNat i.natAbs else formatNat i.toNat

/-- Smallest `int64` value. -/
def int64Min : Int := -(2 ^ 63)

/-- Largest `int64` value. -/
def int64Max : Int := 2 ^ 63 - 1

/-- Model of Go `strconv.ParseInt(s, 10, 64)`: an optional single sign
followed by a non-empty run of decimal digits, rejected when the value
does not fit in `int64`.  (Base 10 parsing admits no underscores and no
other characters.) -/
def goParseInt64 (s : List Char) : Option Int :=
  match s with
  | [] => none
  | c :: cs =>
    let neg := c = '-'
    let ds := if c = '-' || c = '+' then cs else c :: cs
    if (!ds.isEmpty) && allDigits ds then
      let v : Int := if neg then -(digitsVal ds : Int) else (digitsVal ds : Int)
      if int64Min ≤ v && v ≤ int64Max then some v else none
    else none

/-- Split a character list at every character satisfying `p`, keeping the
(possibly empty) fragments between matches; model of Go `strings.Split`
with a one-character separator. -/
def splitCharsOnPred (p : Char → Bool) : List Char → List (List Char)
  | [] => [[]]
  | c :: cs =>
    if p c then [] :: splitCharsOnPred p cs
    else
      match splitCharsOnPred p cs with
      | [] => [[c]]
      | part :: parts => (c :: part) :: parts

/-- Strip an optional leading sign, returning whether it was a minus. -/
def stripSign : List Char → Bool × List Char
  | [] => (false, [])
  | c :: cs =>
    if c = '-' then (true, cs)
    else if c = '+' then (false, cs)
    else (false, c :: cs)

/-- `10 ^ e` over the rationals, for a possibly negative exponent. -/
def tenPowZ (e : Int) : ℚ := (10 : ℚ) ^ e

/-- Mantissa of a decimal float literal: `digits`, `digits.digits`,
`digits.` or `.digits` (at least one digit overall). -/
def parseMantissa (mant : List Char) : Option ℚ :=
  match splitCharsOnPred (fun c => c = '.') mant with
  | [ip] =>
    if (!ip.isEmpty) && allDigits ip then some (digitsVal ip : ℚ) else none
  | [ip, fp] =>
    if (!(ip.isEmpty && fp.isEmpty)) && allDigits ip && allDigits fp then
      some ((digitsVal ip : ℚ) + (digitsVal fp : ℚ) / (10 : ℚ) ^ fp.length)
    else none
  | _ => none

/-- Model of Go `strconv.ParseFloat(s, 64)` on the finite plain-decimal
forms: optional sign, decimal mantissa with optional fraction dot,
optional `e`/`E` exponent with optional sign.  The result is the exact
rational value of the literal; `strconv` rounds it to the nearest
`float64`, which agrees with the exact value on every input used by the
theorems below (integers up to `2^53` and small terminating binary
fractions).  The hexadecimal, `inf`/`nan` and underscore-grouped forms
that `ParseFloat` additionally accepts, and its out-of-`float64`-range
errors, lie outside the subset; no theorem below depends on inputs in
those regions. -/
def goParseFloatDec (s : List Char) : Option ℚ :=
  let (neg, body) := stripSign s
  if body.isEmpty then none
  else
    let signed : ℚ → ℚ := fun q => if neg then -q else q
    match splitCharsOnPred (fun c => c = 'e' || c = 'E') body with
    | [mant] => (parseMantissa mant).map signed
    | [mant, ex] =>
      let (eneg, eds) := stripSign ex
      if (!eds.isEmpty) && allDigits eds then
        (parseMantissa mant).map fun q =>
          signed (q * tenPowZ (if eneg then -(digitsVal eds : Int) else (digitsVal eds : Int)))
      else none
    | _ => none

/-! ### Feed cursor parsing and formatting (`internal/service/user.go`) -/

/-- `parseFeedCursor`: split the cursor at every `':'`, require exactly two
fragments, parse the first with `strconv.ParseInt(_, 10, 64)` and the
second with `strconv.ParseFloat(_, 64)`; returns `(score, postID)`.
`none` models the invalid-cursor error. -/
def parseFeedCursor (cursor : String) : Option (ℚ × Int) :=
  match splitCharsOnPred (fun c => c = ':') cursor.data with
  | [p0, p1] => do
    let id ← goParseInt64 p0
    let score ← goParseFloatDec p1
    pure (score, id)
  | _ => none

/-- Round a rational to the nearest integer, ties to even; the rounding
used when Go formats a `float64` with `%.0f`.  (An exact tie requires the
value `k + 1/2`, which no `float64` equals, so the tie branch is
unreachable from the code; it is included for totality.) -/
def roundHalfEven (q : ℚ) : Int :=
  let f := ⌊q⌋
  let r := q - (f : ℚ)
  if r < 1 / 2 then f
  else if 1 / 2 < r then f + 1
  else if f % 2 = 0 then f else f + 1

/-- Model of `fmt.Sprintf("%.0f", q)`: the rounded integer in decimal.
(Go prints `-0` for negative values rounding to zero; scores are
non-negative timestamps, so that corner is unreachable.) -/
def fmtF0 (q : ℚ) : List Char := formatInt (roundHalfEven q)

/-- `formatFeedCursor`: `fmt.Sprintf("%d:%.0f", id, score)`. -/
def formatFeedCursor (score : ℚ) (id : Int) : String :=
  String.mk (formatInt id ++ ':' :: fmtF0 score)

/-- The canonical cursor shape stated by the spec: `<post-id>:<unix-seconds>`,
both parts non-empty decimal digit runs, one colon, no whitespace.  This
definition follows the spec's words; it is used to state the cursor
claims against the code's actual parser. -/
def isCanonicalCursor (s : String) : Bool :=
  match splitCharsOnPred (fun c => c = ':') s.data with
  | [p0, p1] => (!p0.isEmpty) && allDigits p0 && (!p1.isEmpty) && allDigits p1
  | _ => false

/-! ### Redis sorted-set model

The feed cache (`internal/cache`, `RedisFeedCache`) stores one sorted set
per user: members are post ids (stored as their decimal strings) keyed by
a `float64` score.  Every score the code writes is an `int64` Unix
timestamp cast to `float64` (exact), so scores are embedded as `Int`.
A set is embedded as a list of entries kept in Redis rank order:
ascending by score, ties ascending by the lexicographic order of the
members' decimal representations (Redis compares members as byte
strings).  Rank 0 is the lowest-scored entry, as in Redis. -/

structure ZEntry where
  member : Int
  score : Int
deriving DecidableEq, Repr

/-- A sorted set in rank (ascending) order. -/
abbrev ZSet := List ZEntry

/-- Strict lexicographic byte order on character lists, as Redis compares
sorted-set members. -/
def strLexLt : List Char → List Char → Bool
  | [], [] => false
  | [], _ :: _ => true
  | _ :: _, [] => false
  | a :: as, b :: bs =>
    if a.toNat < b.toNat then true
    else if b.toNat < a.toNat then false
    else strLexLt as bs

/-- Rank order of two entries: by score, ties by member string. -/
def zentryLt (a b : ZEntry) : Bool :=
  a.score < b.score ||
    (a.score == b.score && strLexLt (formatInt a.member) (formatInt b.member))

/-- Insert an entry at its rank position. -/
def insertRanked (e : ZEntry) : ZSet → ZSet
  | [] => [e]
  | x :: xs => if zentryLt e x then e :: x :: xs else x :: insertRanked e xs

/-- `ZADD key score member`: upsert (an existing entry for the member is
replaced, its score overwritten). -/
def zadd (st : ZSet) (member score : Int) : ZSet :=
  insertRanked ⟨member, score⟩ (st.filter (fun e => e.member ≠ member))

/-- `ZREM key member`. -/
def zrem (st : ZSet) (member : Int) : ZSet :=
  st.filter (fun e => e.member ≠ member)

/-- `ZSCORE key member`. -/
def zscore (st : ZSet) (member : Int) : Option Int :=
  (st.find? (fun e => e.member = member)).map (·.score)

/-- `ZREMRANGEBYRANK key 0 stop`: a negative `stop` counts from the end;
after conversion a still-negative stop removes nothing, otherwise ranks
`0..stop` (clamped) are removed. -/
def zremRangeByRankFrom0 (st : ZSet) (stop : Int) : ZSet :=
  let stopIdx : Int := if stop < 0 then (st.length : Int) + stop else stop
  if stopIdx < 0 then st else st.drop (stopIdx.toNat + 1)

/-- `ZREVRANGE key 0 stop`: highest scores first; a negative `stop` counts
from the end of the set. -/
def zrevRangeFrom0 (st : ZSet) (stop : Int) : ZSet :=
  let stopIdx : Int := if stop < 0 then (st.length : Int) + stop else stop
  if stopIdx < 0 then [] else st.reverse.take (stopIdx.toNat + 1)

/-- `ZREVRANGEBYSCORE key (max -inf LIMIT 0 count`: entries with score
strictly below the exclusive bound, highest first; a negative count
returns them all (Redis semantics), count 0 returns none. -/
def zrevRangeByScoreLt (st : ZSet) (maxExcl : ℚ) (count : Int) : ZSet :=
  let elems := st.reverse.filter (fun e => decide ((e.score : ℚ) < maxExcl))
  if count < 0 then elems else elems.take count.toNat

/-! ### Feed cache operations (`internal/cache`, `RedisFeedCache`) -/

/-- `FeedCacheCap`: maximum number of posts cached per user. -/
def FeedCacheCap : Nat := 500

/-- A post id paired with its timestamp score (`cache.PostScore`). -/
structure PostScore where
  postID : Int
  timestamp : Int
deriving DecidableEq, Repr

/-- `AddPost`: pipeline of `ZADD` + `ZREMRANGEBYRANK key 0 -(cap+1)`
(trim to the cap, lowest ranks first) + `EXPIRE` (TTL, not modelled). -/
def addPost (st : ZSet) (postID timestamp : Int) : ZSet :=
  zremRangeByRankFrom0 (zadd st postID timestamp) (-(FeedCacheCap : Int) - 1)

/-- `RemovePost`: `ZREM`. -/
def removePost (st : ZSet) (postID : Int) : ZSet := zrem st postID

/-- The exclusive upper bound the code sends for a cursor read:
`fmt.Sprintf("(%f", cursorScore)` renders the score with six decimals,
rounded to nearest (a tie at the `10^-6` grid is not representable in
`float64`, so ties cannot arise; see `roundHalfEven`). -/
def roundSix (q : ℚ) : ℚ := (⌊q * 1000000 + 1 / 2⌋ : ℚ) / 1000000

/-- `GetFeed` on the cache: without a cursor, `ZREVRANGE key 0 (limit-1)`;
with a cursor, `ZREVRANGEBYSCORE key (cursor -inf LIMIT 0 limit`.  Each
returned entry carries its post id (the member, parsed back from its
decimal string) and its score. -/
def getFeedEntries (st : ZSet) (cursorScore : Option ℚ) (limit : Int) : ZSet :=
  match cursorScore with
  | none => zrevRangeFrom0 st (limit - 1)
  | some s => zrevRangeByScoreLt st (roundSix s) limit

/-- `GetScore`: `ZSCORE`; `none` models the not-found reply. -/
def getScore (st : ZSet) (postID : Int) : Option Int := zscore st postID

/-- Sequential upserts of a batch, as the single variadic `ZADD` of
`WarmCache` applies its members. -/
def bulkZAdd (st : ZSet) (posts : List PostScore) : ZSet :=
  posts.foldl (fun acc p => zadd acc p.postID p.timestamp) st

/-- `WarmCache`: an empty batch is a no-op; otherwise pipeline of batched
`ZADD` + `ZREMRANGEBYRANK key 0 -(cap+1)` + `EXPIRE`. -/
def warmCache (st : ZSet) (posts : List PostScore) : ZSet :=
  if posts.isEmpty then st
  else zremRangeByRankFrom0 (bulkZAdd st posts) (-(FeedCacheCap : Int) - 1)

/-- `Size`: `ZCARD`. -/
def cacheSize (st : ZSet) : Nat := st.length

/-- `Exists`: `EXISTS key`; a Redis key holding an empty sorted set does
not exist (empty sets are removed), so existence is non-emptiness. -/
def cacheExists (st : ZSet) : Bool := !st.isEmpty

/-- One cache mutation, as issued by the worker handlers and the read
service. -/
inductive CacheMutation where
  | add (postID timestamp : Int)
  | remove (postID : Int)
  | warm (posts : List PostScore)

/-- Apply one mutation to a user's cached feed. -/
def applyMutation (st : ZSet) : CacheMutation → ZSet
  | .add p t => addPost st p t
  | .remove p => removePost st p
  | .warm ps => warmCache st ps

/-- Run a mutation sequence against an initially absent feed. -/
def runMutations (muts : List CacheMutation) : ZSet :=
  muts.foldl applyMutation []

/-! ### Primary-store model (`internal/repository`)

A post row carries the fields the feed pipeline reads: id, author,
creation time and the soft-deletion marker.  Creation times are embedded
in whole Unix seconds, the projection the repository itself takes with
`EXTRACT(EPOCH FROM created_at)::bigint`; sub-second fractions never
reach the pipeline.  SQL leaves the order of `created_at` ties
unspecified; the model determinises them by descending id, matching the
tuple order `(created_at DESC, id DESC)` the code uses wherever it
specifies ties at all. -/

structure PostRow where
  id : Int
  userID : Int
  createdAt : Int
  deleted : Bool
deriving DecidableEq, Repr

/-- The tables the feed read path touches. -/
structure FeedDB where
  posts : List PostRow
  follows : List (Int × Int)
deriving DecidableEq, Repr

/-- `GetFolloweeIDs`: followees of a user, from the follows table. -/
def getFolloweeIDs (db : FeedDB) (userID : Int) : List Int :=
  (db.follows.filter (fun f => f.1 = userID)).map (·.2)

/-- Insert a post into a list kept in `(created_at DESC, id DESC)` order. -/
def insertPostDesc (p : PostRow) : List PostRow → List PostRow
  | [] => [p]
  | q :: qs =>
    if q.createdAt < p.createdAt || (q.createdAt = p.createdAt && q.id < p.id) then
      p :: q :: qs
    else q :: insertPostDesc p qs

/-- Sort posts by `(created_at DESC, id DESC)`. -/
def sortPostsDesc (l : List PostRow) : List PostRow :=
  l.foldr insertPostDesc []

/-- `GetFeedPostIDs`: the most recent non-deleted posts of the given
authors, newest first, bounded by `limit`, projected to
`(id, EXTRACT(EPOCH FROM created_at)::bigint)` pairs. -/
def getFeedPostIDs (db : FeedDB) (followeeIDs : List Int) (limit : Nat) :
    List PostScore :=
  if followeeIDs.isEmpty then []
  else
    ((sortPostsDesc (db.posts.filter
        (fun p => followeeIDs.contains p.userID && !p.deleted))).take limit).map
      (fun p => ⟨p.id, p.createdAt⟩)

/-- `GetByIDs`: fetch the non-deleted rows among the given ids and reorder
them to the input order (post ids are unique in the store). -/
def getByIDs (db : FeedDB) (postIDs : List Int) : List PostRow :=
  postIDs.filterMap
    (fun pid => db.posts.find? (fun p => p.id = pid && !p.deleted))

/-! ### Feed read service (`internal/service`, `FeedService.GetFeed`) -/

/-- The response shape of `GetFeed` restricted to what decides the feed
claims: the hydrated post rows in their returned order, the next cursor
and the has-more flag.  (The per-post author, follow-status and
like-status enrichment of `hydratePosts` decorates each returned post but
never changes which posts are returned or their order, so it is not
modelled.) -/
structure FeedResponseM where
  posts : List PostRow
  nextCursor : Option String
  hasMore : Bool
deriving DecidableEq, Repr

/-- `FeedService.GetFeed`, threading the viewer's cache state explicitly:
clamp the limit, probe cache existence, warm the cache from the primary
store when absent (`warmCache` service subroutine: followees plus the
viewer, up to 500 recent posts), parse the cursor, read the cache range,
and hydrate.  `none` models the invalid-cursor error return.  When the
cache range read yields no entries the code returns an empty feed
response unconditionally. -/
def getFeedService (db : FeedDB) (cacheSt : ZSet) (userID : Int)
    (cursor : Option String) (limit0 : Int) : Option FeedResponseM :=
  let limit : Int := if limit0 ≤ 0 then 10 else if 50 < limit0 then 50 else limit0
  let st :=
    if cacheExists cacheSt then cacheSt
    else
      let followeeIDs := getFolloweeIDs db userID ++ [userID]
      if followeeIDs.isEmpty then cacheSt
      else
        let posts := getFeedPostIDs db followeeIDs 500
        if posts.isEmpty then cacheSt else warmCache cacheSt posts
  let cursorScore? : Option (Option ℚ) :=
    match cursor with
    | none => some none
    | some c => (parseFeedCursor c).map (fun sc => some sc.1)
  match cursorScore? with
  | none => none
  | some cursorScore =>
    let entries := getFeedEntries st cursorScore limit
    if entries.isEmpty then some ⟨[], none, false⟩
    else
      let posts := getByIDs db (entries.map (·.member))
      let hasMore := posts.length == limit.toNat
      let nextCursor :=
        match hasMore, posts.getLast?, entries.getLast? with
        | true, some lastPost, some lastEntry =>
          some (formatFeedCursor (lastEntry.score : ℚ) lastPost.id)
        | _, _, _ => none
      some ⟨posts, nextCursor, hasMore⟩

/-- Modelled from the spec: the primary-store fallback query of spec
section 4.D step 6 — up to `limit` non-deleted posts authored by the
viewer or anyone the viewer follows, with `(created_at, id)` strictly
below the cursor tuple, ordered by `(created_at DESC, id DESC)`.  No
function of the repository implements this query; the repository's own
design documents (`plan/feed.md`, workflows 3, 4 and 9) describe it as
the required fallback, and the comments inside `GetFeed` claim to take
it, but the code returns an empty feed instead. -/
def specFeedFallback (db : FeedDB) (viewerID cursorTs cursorID : Int)
    (limit : Nat) : List PostRow :=
  let authors := viewerID :: getFolloweeIDs db viewerID
  (sortPostsDesc (db.posts.filter (fun p =>
      authors.contains p.userID && !p.deleted &&
        (p.createdAt < cursorTs ||
          (p.createdAt = cursorTs && p.id < cursorID))))).take limit

/-! ### Feed events (`internal/queue/events.go`) -/

/-- `queue.FeedEvent`: the common envelope of every feed-stream event.
Fields not set by a constructor keep Go's zero value `0`. -/
structure FeedEvent where
  type : String
  timestamp : Int
  postID : Int
  authorID : Int
  followerID : Int
  followeeID : Int
deriving DecidableEq, Repr

/-- `EventPostCreated`. -/
def EventPostCreated : String := "post_created"

/-- `EventPostDeleted`. -/
def EventPostDeleted : String := "post_deleted"

/-- `EventUserFollowed`. -/
def EventUserFollowed : String := "user_followed"

/-- `EventUserUnfollowed`. -/
def EventUserUnfollowed : String := "user_unfollowed"

/-- `NewPostCreatedEvent`: the event's timestamp is `time.Now().Unix()`
at the moment the event value is constructed (after the post row was
committed), passed here as the explicit clock reading `now`. -/
def NewPostCreatedEvent (postID authorID now : Int) : FeedEvent :=
  ⟨EventPostCreated, now, postID, authorID, 0, 0⟩

/-- `NewPostDeletedEvent`. -/
def NewPostDeletedEvent (postID authorID now : Int) : FeedEvent :=
  ⟨EventPostDeleted, now, postID, authorID, 0, 0⟩

/-- `NewUserFollowedEvent`. -/
def NewUserFollowedEvent (followerID followeeID now : Int) : FeedEvent :=
  ⟨EventUserFollowed, now, 0, 0, followerID, followeeID⟩

/-- `NewUserUnfollowedEvent`. -/
def NewUserUnfollowedEvent (followerID followeeID now : Int) : FeedEvent :=
  ⟨EventUserUnfollowed, now, 0, 0, followerID, followeeID⟩

/-! ### Stream consumer (`internal/queue/consumer.go`) -/

/-- A raw Redis stream entry as `XREADGROUP` delivers it: the assigned
message id and the field-value pairs of the envelope. -/
structure RawMessage where
  id : String
  values : List (String × String)
deriving DecidableEq, Repr

/-- A parsed message (`queue.Message`). -/
structure Message where
  id : String
  event : FeedEvent
deriving DecidableEq, Repr

/-- Field lookup in a stream entry's value map. -/
def lookupField (values : List (String × String)) (k : String) : Option String :=
  (values.find? (fun v => v.1 = k)).map (·.2)

/-- `ParseFeedEvent`: require a `data` field and JSON-decode it.  The
JSON decoding of the payload string is the parameter `decode`; a `none`
result models any `json.Unmarshal` failure (and a missing `data` field
fails before decoding). -/
def ParseFeedEventM (decode : String → Option FeedEvent)
    (values : List (String × String)) : Option FeedEvent :=
  (lookupField values "data").bind decode

/-- The message-parsing loop of `RedisConsumer.Read` (and `ReadPending`):
each delivered entry whose payload fails to parse is logged and skipped
with `continue`; only the successfully parsed ones are returned to the
worker.  `XREADGROUP` has already placed every delivered entry — parsed
or not — on the consumer's pending list. -/
def consumerRead (decode : String → Option FeedEvent)
    (delivered : List RawMessage) : List Message :=
  delivered.filterMap
    (fun m => (ParseFeedEventM decode m.values).map (fun e => ⟨m.id, e⟩))

/-! ### Worker manager (`internal/worker`, `Manager.handleMessages`) -/

/-- The externally visible outcome of one `handleMessages` batch: the
message ids acknowledged with `XACK`, and the ids whose handler returned
an error (logged by the worker). -/
structure BatchOutcome where
  acked : List String
  failedHandler : List String
deriving DecidableEq, Repr

/-- `Manager.handleMessages`: for each message run the handler; when it
returns an error, log it — and still acknowledge ("Still ACK to prevent
infinite retry loops").  The handler's outcome per event is the
parameter `handlerResult`, standing for `Handler.HandleEvent` whose
errors originate in the provider and cache interfaces. -/
def handleMessages (handlerResult : FeedEvent → Except String Unit)
    (msgs : List Message) : BatchOutcome :=
  msgs.foldl
    (fun out msg =>
      match handlerResult msg.event with
      | .error _ => ⟨out.acked ++ [msg.id], out.failedHandler ++ [msg.id]⟩
      | .ok _ => ⟨out.acked ++ [msg.id], out.failedHandler⟩)
    ⟨[], []⟩

/-- Message ids still on the consumer's pending list after one delivered
batch has gone through `Read` and `handleMessages`: every delivered id
(`XREADGROUP` adds each to the pending list) minus the acknowledged
ones. -/
def pendingAfterBatch (decode : String → Option FeedEvent)
    (delivered : List RawMessage)
    (handlerResult : FeedEvent → Except String Unit) : List String :=
  let acked := (handleMessages handlerResult (consumerRead decode delivered)).acked
  (delivered.map (·.id)).filter (fun i => !acked.contains i)

/-! ### Worker event handler (`internal/worker`, `Handler`) -/

/-- The per-user feed caches, keyed by user id; absent keys are empty
sets. -/
abbrev Caches := List (Int × ZSet)

/-- The cached feed of one user. -/
def cacheOf (cs : Caches) (userID : Int) : ZSet :=
  ((cs.find? (fun c => c.1 = userID)).map (·.2)).getD []

/-- Replace one user's cached feed. -/
def setCache (cs : Caches) (userID : Int) (st : ZSet) : Caches :=
  (userID, st) :: cs.filter (fun c => c.1 ≠ userID)

/-- `feedCache.AddPost` applied to one recipient. -/
def addPostFor (cs : Caches) (userID postID ts : Int) : Caches :=
  setCache cs userID (addPost (cacheOf cs userID) postID ts)

/-- `Handler.handlePostCreated`: fetch the author's followers (the
`followers` argument models `followerProvider.GetFollowerIDs`), add the
post to each follower's cache with the event's timestamp as score, then
add it to the author's own cache with the same score.  Per-recipient
cache failures are logged and skipped; the model takes the all-successful
run, which is the one scoring every recipient. -/
def handlePostCreated (cs : Caches) (followers : List Int)
    (event : FeedEvent) : Caches :=
  let cs1 := followers.foldl
    (fun acc f => addPostFor acc f event.postID event.timestamp) cs
  addPostFor cs1 event.authorID event.postID event.timestamp

/-! ### Write-path services (`internal/service`, `internal/repository`) -/

/-- A user row restricted to the denormalised counters the write paths
touch. -/
structure UserRow where
  id : Int
  followerCount : Int
  followingCount : Int
  postCount : Int
deriving DecidableEq, Repr

/-- The tables the follow and post-delete transactions touch. -/
structure AppDB where
  users : List UserRow
  follows : List (Int × Int)
  posts : List PostRow
deriving DecidableEq, Repr

/-- The typed service errors involved in the follow / delete claims
(`model.Err...`). -/
inductive SvcError where
  | cannotFollowSelf
  | alreadyFollowing
  | userNotFound
  | postNotFound
  | notPostOwner
deriving DecidableEq, Repr

/-- `userRepo.GetByID` restricted to existence. -/
def userGetByID (db : AppDB) (userID : Int) : Option UserRow :=
  db.users.find? (fun u => u.id = userID)

/-- `IncrementFollowerCount`: `UPDATE users SET follower_count =
follower_count + delta WHERE id = userID`. -/
def bumpFollowerCount (db : AppDB) (userID : Int) (delta : Int) : AppDB :=
  { db with users := db.users.map (fun u =>
      if u.id = userID then { u with followerCount := u.followerCount + delta } else u) }

/-- `IncrementFollowingCount`. -/
def bumpFollowingCount (db : AppDB) (userID : Int) (delta : Int) : AppDB :=
  { db with users := db.users.map (fun u =>
      if u.id = userID then { u with followingCount := u.followingCount + delta } else u) }

/-- `UPDATE users SET post_count = post_count + delta WHERE id = userID`. -/
def bumpPostCount (db : AppDB) (userID : Int) (delta : Int) : AppDB :=
  { db with users := db.users.map (fun u =>
      if u.id = userID then { u with postCount := u.postCount + delta } else u) }

/-- `followRepository.Create`: `INSERT ... ON CONFLICT DO NOTHING`;
returns whether a row was inserted. -/
def followCreate (db : AppDB) (followerID followeeID : Int) : Bool × AppDB :=
  if (followerID, followeeID) ∈ db.follows then (false, db)
  else (true, { db with follows := db.follows ++ [(followerID, followeeID)] })

/-- `FollowService.Follow`: reject self-follow, require the followee to
exist, and in one transaction insert the edge and increment both
counters; a pre-existing edge yields the conflict error with the
transaction rolled back (an error result leaves the caller's database
unchanged).  Only after the commit is the `user_followed` event
published; the returned list holds the events published, in order. -/
def followService (db : AppDB) (followerID followeeID now : Int) :
    Except SvcError (AppDB × List FeedEvent) :=
  if followerID = followeeID then .error .cannotFollowSelf
  else
    match userGetByID db followeeID with
    | none => .error .userNotFound
    | some _ =>
      let ins := followCreate db followerID followeeID
      if !ins.1 then .error .alreadyFollowing
      else
        let db2 := bumpFollowingCount (bumpFollowerCount ins.2 followeeID 1) followerID 1
        .ok (db2, [NewUserFollowedEvent followerID followeeID now])

/-- `postRepository.Delete`: in one transaction, `UPDATE posts SET
deleted_at = NOW() WHERE id = postID AND user_id = userID AND deleted_at
IS NULL`; zero rows affected distinguishes a live post of another owner
(forbidden) from a missing or already-deleted post (not found), and the
transaction rolls back; otherwise the author's post count is decremented
and the transaction commits. -/
def postRepoDelete (db : AppDB) (postID userID : Int) : Except SvcError AppDB :=
  let hit := fun p : PostRow => p.id = postID && p.userID = userID && !p.deleted
  if (db.posts.filter hit).isEmpty then
    if db.posts.any (fun p => p.id = postID && !p.deleted) then .error .notPostOwner
    else .error .postNotFound
  else
    let posts := db.posts.map (fun p => if hit p then { p with deleted := true } else p)
    .ok (bumpPostCount { db with posts := posts } userID (-1))

/-- `PostService.Delete`: run the repository delete; only on success is
the `post_deleted` event published (after the commit). -/
def postServiceDelete (db : AppDB) (postID userID now : Int) :
    Except SvcError (AppDB × List FeedEvent) :=
  match postRepoDelete db postID userID with
  | .error e => .error e
  | .ok db2 => .ok (db2, [NewPostDeletedEvent postID userID now])

/-- Rank order of a set: scores ascending (ties resolved by the member
strings inside `zentryLt`; only the score component matters for the
claims). -/
def ScoreSorted (st : ZSet) : Prop :=
  st.Pairwise (fun a b => a.score ≤ b.score)

/-- The cap trim of `AddPost` / `WarmCache` keeps only higher scores: every
entry it removes (the lowest ranks of the set past the cap) scores no
higher than any entry it keeps. -/
def trimKeepsHigher (st : ZSet) : Bool :=
  (st.take (st.length - FeedCacheCap)).all (fun e =>
    (zremRangeByRankFrom0 st (-(FeedCacheCap : Int) - 1)).all
      (fun e2 => e.score ≤ e2.score))

/-- The non-negative integers a `float64` represents exactly:
`m * 2 ^ e` with a 53-bit significand and an exponent within range.  Used
to state the cursor round-trip claim within the regime where the exact
rational model and `float64` arithmetic agree. -/
def fitsFloat64 (n : Nat) : Prop :=
  ∃ m e : Nat, m ≤ 2 ^ 53 ∧ e ≤ 971 ∧ n = m * 2 ^ e

/-! ### Supporting lemmas: decimal digits and the strconv models -/

theorem digit_char_toNat : ∀ k, k < 10 → (Char.ofNat (48 + k)).toNat = 48 + k := by
  decide

theorem isDigit_digit : ∀ k, k < 10 → isDigitCh (Char.ofNat (48 + k)) = true := by
  decide

theorem formatNat_ne_nil (n : Nat) : formatNat n ≠ [] := by
  rw [formatNat]
  split <;> simp

theorem allDigits_append (l1 l2 : List Char) :
    allDigits (l1 ++ l2) = (allDigits l1 && allDigits l2) := by
  simp [allDigits]

theorem formatNat_all_digits (n : Nat) : allDigits (formatNat n) = true := by
  induction n using Nat.strong_induction_on with
  | _ n ih =>
    rw [formatNat]
    split
    · next h => simp [allDigits, isDigit_digit n h]
    · next h =>
      have h1 := ih (n / 10) (Nat.div_lt_self (by omega) (by omega))
      have h2 := isDigit_digit (n % 10) (Nat.mod_lt _ (by omega))
      rw [allDigits_append, h1]
      simp [allDigits, h2]

theorem digitsVal_append_singleton (l : List Char) (c : Char) :
    digitsVal (l ++ [c]) = 10 * digitsVal l + (c.toNat - 48) := by
  simp [digitsVal]

theorem digitsVal_formatNat (n : Nat) : digitsVal (formatNat n) = n := by
  induction n using Nat.strong_induction_on with
  | _ n ih =>
    rw [formatNat]
    split
    · next h => simp [digitsVal, digit_char_toNat n h]
    · next h =>
      rw [digitsVal_append_singleton, ih (n / 10) (Nat.div_lt_self (by omega) (by omega)),
        digit_char_toNat (n % 10) (Nat.mod_lt _ (by omega))]
      omega

theorem digit_char_ne (c d : Char) (h : isDigitCh c = true) (hd : isDigitCh d = false) :
    decide (c = d) = false := by
  apply decide_eq_false
  intro he
  rw [he] at h
  rw [h] at hd
  cases hd

theorem allDigits_mem (l : List Char) (h : allDigits l = true) (c : Char) (hc : c ∈ l) :
    isDigitCh c = true := by
  simp only [allDigits, List.all_eq_true] at h
  exact h c hc

theorem splitCharsOnPred_no_match (p : Char → Bool) (l : List Char)
    (h : ∀ c ∈ l, p c = false) : splitCharsOnPred p l = [l] := by
  induction l with
  | nil => rfl
  | cons c cs ih =>
    rw [splitCharsOnPred, h c (by simp), ih (fun d hd => h d (by simp [hd]))]
    simp

theorem splitCharsOnPred_sep (p : Char → Bool) (l1 l2 : List Char) (s : Char)
    (h1 : ∀ c ∈ l1, p c = false) (hs : p s = true) :
    splitCharsOnPred p (l1 ++ s :: l2) = l1 :: splitCharsOnPred p l2 := by
  induction l1 with
  | nil => simp [splitCharsOnPred, hs]
  | cons c cs ih =>
    rw [List.cons_append, splitCharsOnPred, h1 c (by simp),
      ih (fun d hd => h1 d (by simp [hd]))]
    simp

theorem goParseInt64_digits (l : List Char) (hne : l ≠ []) (hd : allDigits l = true)
    (hra : (digitsVal l : Int) ≤ int64Max) :
    goParseInt64 l = some ((digitsVal l : Int)) := by
  match l, hne with
  | c :: cs, _ =>
    have hc : isDigitCh c = true := allDigits_mem _ hd c (by simp)
    have hm : decide (c = '-') = false := digit_char_ne c '-' hc (by decide)
    have hp : decide (c = '+') = false := digit_char_ne c '+' hc (by decide)
    have hm2 : ¬(c = '-') := of_decide_eq_false (digit_char_ne c '-' hc (by decide))
    have hp2 : ¬(c = '+') := of_decide_eq_false (digit_char_ne c '+' hc (by decide))
    have hmin : int64Min ≤ (digitsVal (c :: cs) : Int) := by
      have h0 : (0 : Int) ≤ (digitsVal (c :: cs) : Int) := Int.natCast_nonneg _
      have h2 : int64Min ≤ 0 := by decide
      omega
    simp [goParseInt64, hm2, hp2, hd, hmin, hra]

theorem goParseFloatDec_digits (l : List Char) (hne : l ≠ []) (hd : allDigits l = true) :
    goParseFloatDec l = some ((digitsVal l : ℚ)) := by
  match l, hne with
  | c :: cs, _ =>
    have hc : isDigitCh c = true := allDigits_mem _ hd c (by simp)
    have hm : ¬(c = '-') := of_decide_eq_false (digit_char_ne c '-' hc (by decide))
    have hp : ¬(c = '+') := of_decide_eq_false (digit_char_ne c '+' hc (by decide))
    have hsplitE : splitCharsOnPred (fun d => d = 'e' || d = 'E') (c :: cs) = [c :: cs] := by
      apply splitCharsOnPred_no_match
      intro d hdm
      have hdd := allDigits_mem _ hd d hdm
      rw [digit_char_ne d 'e' hdd (by decide), digit_char_ne d 'E' hdd (by decide)]
      rfl
    have hsplitDot : splitCharsOnPred (fun d => d = '.') (c :: cs) = [c :: cs] :=
      splitCharsOnPred_no_match _ _ (fun d hdm =>
        digit_char_ne d '.' (allDigits_mem _ hd d hdm) (by decide))
    have hss : stripSign (c :: cs) = (false, c :: cs) := by
      rw [stripSign, if_neg hm, if_neg hp]
    have hmant : parseMantissa (c :: cs) = some (digitsVal (c :: cs)) := by
      rw [parseMantissa, hsplitDot]
      simp [hd]
    rw [goParseFloatDec, hss]
    simp [hsplitE, hmant]

theorem goParseInt64_formatInt (i : Int) (hlo : int64Min ≤ i) (hhi : i ≤ int64Max) :
    goParseInt64 (formatInt i) = some i := by
  rw [formatInt]
  split
  · next hneg =>
    obtain ⟨d, ds, hds⟩ : ∃ d ds, formatNat i.natAbs = d :: ds := by
      cases h : formatNat i.natAbs with
      | nil => exact absurd h (formatNat_ne_nil _)
      | cons d ds => exact ⟨d, ds, rfl⟩
    have hdd : allDigits (d :: ds) = true := hds ▸ formatNat_all_digits i.natAbs
    have hval : (digitsVal (d :: ds) : Int) = -i := by
      rw [← hds, digitsVal_formatNat]; omega
    have hmax : -(digitsVal (d :: ds) : Int) ≤ int64Max := by
      have : int64Max ≥ 0 := by decide
      omega
    have hmin : int64Min ≤ -(digitsVal (d :: ds) : Int) := by omega
    rw [hds]
    simp only [goParseInt64, hdd, hmin, hmax]
    norm_num
    exact ⟨hdd, ⟨hmin, hmax⟩, by omega⟩
  · next hpos =>
    rw [goParseInt64_digits _ (formatNat_ne_nil _) (formatNat_all_digits _)
      (by rw [digitsVal_formatNat]; omega)]
    rw [digitsVal_formatNat]
    congr 1
    omega

theorem roundHalfEven_intCast (n : Int) : roundHalfEven (n : ℚ) = n := by
  rw [roundHalfEven]
  norm_num

theorem formatInt_no_colon (i : Int) : ∀ c ∈ formatInt i, decide (c = ':') = false := by
  intro c hc
  rw [formatInt] at hc
  split at hc
  · rcases List.mem_cons.mp hc with h | h
    · subst h; decide
    · exact digit_char_ne _ ':' (allDigits_mem _ (formatNat_all_digits _) _ h) (by decide)
  · exact digit_char_ne _ ':' (allDigits_mem _ (formatNat_all_digits _) _ hc) (by decide)

/-- Core round-trip computation shared by the cursor claims: formatting a
non-negative whole-second score and any in-range id, then parsing,
recovers the pair exactly. -/
theorem parse_format_roundtrip (id : Int) (n : Nat)
    (hlo : int64Min ≤ id) (hhi : id ≤ int64Max) :
    parseFeedCursor (formatFeedCursor (n : ℚ) id) = some ((n : ℚ), id) := by
  have hfmt : fmtF0 (n : ℚ) = formatNat n := by
    rw [fmtF0, show ((n : ℚ)) = (((n : Int) : ℚ)) by push_cast; rfl,
      roundHalfEven_intCast, formatInt]
    rw [if_neg (by omega)]
    congr 1
  rw [formatFeedCursor, hfmt, parseFeedCursor]
  show (match splitCharsOnPred (fun c => c = ':') (formatInt id ++ ':' :: formatNat n) with
    | [p0, p1] => do
      let i ← goParseInt64 p0
      let score ← goParseFloatDec p1
      pure (score, i)
    | _ => none) = some ((n : ℚ), id)
  rw [splitCharsOnPred_sep _ _ _ ':' (formatInt_no_colon id) (by decide),
    splitCharsOnPred_no_match _ _ (fun c hc =>
      digit_char_ne c ':' (allDigits_mem _ (formatNat_all_digits n) c hc) (by decide))]
  simp [goParseInt64_formatInt id hlo hhi,
    goParseFloatDec_digits _ (formatNat_ne_nil n) (formatNat_all_digits n),
    digitsVal_formatNat]

/-! ### Supporting lemmas: the sorted-set model -/

theorem zentryLt_true_le (a b : ZEntry) (h : zentryLt a b = true) :
    a.score ≤ b.score := by
  rw [zentryLt, Bool.or_eq_true, Bool.and_eq_true] at h
  rcases h with h | ⟨h, _⟩
  · exact le_of_lt (of_decide_eq_true h)
  · exact le_of_eq (beq_iff_eq.mp h)

theorem zentryLt_false_ge (a b : ZEntry) (h : zentryLt a b = false) :
    b.score ≤ a.score := by
  rw [zentryLt, Bool.or_eq_false_iff] at h
  have := h.1
  have h2 : ¬(a.score < b.score) := by
    intro hlt
    rw [decide_eq_true hlt] at this
    cases this
  omega

theorem mem_insertRanked (a e : ZEntry) (st : ZSet) :
    a ∈ insertRanked e st ↔ a = e ∨ a ∈ st := by
  induction st with
  | nil => simp [insertRanked]
  | cons x xs ih =>
    rw [insertRanked]
    split
    · simp
    · simp only [List.mem_cons, ih]
      tauto

theorem insertRanked_sorted (e : ZEntry) (st : ZSet) (h : ScoreSorted st) :
    ScoreSorted (insertRanked e st) := by
  induction st with
  | nil => simp [insertRanked, ScoreSorted]
  | cons x xs ih =>
    rw [insertRanked]
    split
    · next hlt =>
      refine List.Pairwise.cons ?_ h
      intro b hb
      rcases List.mem_cons.mp hb with rfl | hb
      · exact zentryLt_true_le e b hlt
      · exact le_trans (zentryLt_true_le e x hlt) (List.rel_of_pairwise_cons h hb)
    · next hge =>
      have hxe : x.score ≤ e.score :=
        zentryLt_false_ge e x (Bool.eq_false_iff.mpr hge)
      refine List.Pairwise.cons ?_ (ih (List.pairwise_cons.mp h).2)
      intro b hb
      rcases (mem_insertRanked b e xs).mp hb with rfl | hb
      · exact hxe
      · exact List.rel_of_pairwise_cons h hb

theorem zadd_sorted (st : ZSet) (m s : Int) (h : ScoreSorted st) :
    ScoreSorted (zadd st m s) :=
  insertRanked_sorted _ _ (List.Pairwise.filter _ h)

theorem drop_sorted (st : ZSet) (k : Nat) (h : ScoreSorted st) :
    ScoreSorted (st.drop k) :=
  List.Pairwise.sublist (List.drop_sublist k st) h

theorem zremRank_eq_drop (st : ZSet) :
    zremRangeByRankFrom0 st (-(FeedCacheCap : Int) - 1) =
      st.drop (st.length - FeedCacheCap) := by
  have hc : -(FeedCacheCap : Int) - 1 < 0 := by simp [FeedCacheCap]
  rw [zremRangeByRankFrom0]
  simp only [if_pos hc]
  split
  · next h =>
    have h0 : st.length - FeedCacheCap = 0 := by
      simp only [FeedCacheCap] at h ⊢
      omega
    rw [h0, List.drop_zero]
  · next h =>
    have h1 : ((st.length : Int) + (-(FeedCacheCap : Int) - 1)).toNat + 1 =
        st.length - FeedCacheCap := by
      simp only [FeedCacheCap] at h ⊢
      omega
    rw [h1]

theorem addPost_sorted (st : ZSet) (p t : Int) (h : ScoreSorted st) :
    ScoreSorted (addPost st p t) := by
  rw [addPost, zremRank_eq_drop]
  exact drop_sorted _ _ (zadd_sorted _ _ _ h)

theorem addPost_length_le (st : ZSet) (p t : Int) :
    (addPost st p t).length ≤ FeedCacheCap := by
  rw [addPost, zremRank_eq_drop, List.length_drop]
  omega

theorem bulkZAdd_sorted (st : ZSet) (posts : List PostScore) (h : ScoreSorted st) :
    ScoreSorted (bulkZAdd st posts) := by
  induction posts generalizing st with
  | nil => exact h
  | cons p ps ih => exact ih _ (zadd_sorted _ _ _ h)

theorem warmCache_sorted (st : ZSet) (posts : List PostScore) (h : ScoreSorted st) :
    ScoreSorted (warmCache st posts) := by
  rw [warmCache]
  split
  · exact h
  · rw [zremRank_eq_drop]
    exact drop_sorted _ _ (bulkZAdd_sorted _ _ h)

theorem removePost_sorted (st : ZSet) (p : Int) (h : ScoreSorted st) :
    ScoreSorted (removePost st p) :=
  List.Pairwise.filter _ h

theorem warmCache_length_le (st : ZSet) (posts : List PostScore)
    (h : st.length ≤ FeedCacheCap) : (warmCache st posts).length ≤ FeedCacheCap := by
  rw [warmCache]
  split
  · exact h
  · rw [zremRank_eq_drop, List.length_drop]
    omega

theorem runMutations_sorted (muts : List CacheMutation) :
    ScoreSorted (runMutations muts) := by
  rw [runMutations]
  have key : ∀ st : ZSet, ScoreSorted st →
      ScoreSorted (muts.foldl applyMutation st) := by
    induction muts with
    | nil => intro st h; exact h
    | cons m ms ih =>
      intro st h
      rw [List.foldl_cons]
      refine ih _ ?_
      cases m with
      | add p t => exact addPost_sorted _ _ _ h
      | remove p => exact removePost_sorted _ _ h
      | warm ps => exact warmCache_sorted _ _ h
  exact key [] (List.Pairwise.nil)

theorem runMutations_length_le (muts : List CacheMutation) :
    (runMutations muts).length ≤ FeedCacheCap := by
  rw [runMutations]
  have key : ∀ st : ZSet, st.length ≤ FeedCacheCap →
      (muts.foldl applyMutation st).length ≤ FeedCacheCap := by
    induction muts with
    | nil => intro st h; exact h
    | cons m ms ih =>
      intro st h
      rw [List.foldl_cons]
      refine ih _ ?_
      cases m with
      | add p t => exact addPost_length_le _ _ _
      | remove p => exact le_trans (List.length_filter_le _ _) h
      | warm ps => exact warmCache_length_le _ _ h
  exact key [] (by simp [FeedCacheCap])

theorem trimKeepsHigher_of_sorted (st : ZSet) (h : ScoreSorted st) :
    trimKeepsHigher st = true := by
  rw [trimKeepsHigher, zremRank_eq_drop]
  rw [List.all_eq_true]
  intro e he
  rw [List.all_eq_true]
  intro e2 he2
  have hsplit : ScoreSorted (st.take (st.length - FeedCacheCap) ++
      st.drop (st.length - FeedCacheCap)) := by
    rw [List.take_append_drop]
    exact h
  have := (List.pairwise_append.mp hsplit).2.2 e he e2 he2
  exact decide_eq_true this

theorem roundSix_intCast (m : Int) : roundSix (m : ℚ) = m := by
  rw [roundSix]
  have h1 : (m : ℚ) * 1000000 + 1 / 2 = ((1000000 * m : Int) : ℚ) + 1 / 2 := by
    push_cast
    ring
  have h2 : ⌊(1 : ℚ) / 2⌋ = 0 := by
    rw [Int.floor_eq_zero_iff]
    constructor <;> norm_num
  rw [h1, Int.floor_int_add, h2]
  push_cast
  field_simp

theorem roundSix_mono (q r : ℚ) (h : q ≤ r) : roundSix q ≤ roundSix r := by
  rw [roundSix, roundSix]
  have hf : ⌊q * 1000000 + 1 / 2⌋ ≤ ⌊r * 1000000 + 1 / 2⌋ :=
    Int.floor_le_floor (by linarith)
  have hc : ((⌊q * 1000000 + 1 / 2⌋ : ℚ)) ≤ ((⌊r * 1000000 + 1 / 2⌋ : ℚ)) := by
    exact_mod_cast hf
  exact div_le_div_of_nonneg_right hc (by norm_num)

theorem int_lt_of_lt_roundSix (m : Int) (s : ℚ) (h : (m : ℚ) < roundSix s) :
    (m : ℚ) < s := by
  by_contra h2
  push_neg at h2
  have h3 := roundSix_mono s (m : ℚ) h2
  rw [roundSix_intCast] at h3
  linarith

theorem find?_filter_of_imp {α : Type} (l : List α) (p q : α → Bool)
    (h : ∀ a, p a = true → q a = true) :
    (l.filter q).find? p = l.find? p := by
  induction l with
  | nil => rfl
  | cons a as ih =>
    rw [List.filter_cons]
    by_cases hp : p a = true
    · rw [h a hp]
      simp only [if_true]
      rw [List.find?_cons_of_pos _ hp, List.find?_cons_of_pos _ hp]
    · have hp2 : p a = false := by revert hp; cases p a <;> simp
      rw [List.find?_cons_of_neg _ (by simp [hp2])]
      cases hq : q a
      · simp only [Bool.false_eq_true, if_false]
        exact ih
      · simp only [if_true]
        rw [List.find?_cons_of_neg _ (by simp [hp2])]
        exact ih

theorem cacheOf_setCache_self (cs : Caches) (u : Int) (st : ZSet) :
    cacheOf (setCache cs u st) u = st := by
  rw [cacheOf, setCache, List.find?_cons_of_pos _ (by simp)]
  rfl

theorem cacheOf_setCache_ne (cs : Caches) (u v : Int) (st : ZSet) (h : v ≠ u) :
    cacheOf (setCache cs u st) v = cacheOf cs v := by
  rw [cacheOf, setCache, List.find?_cons_of_neg _ (by simp [Ne.symm h]),
    find?_filter_of_imp _ _ _ (fun a ha => by
      have : a.1 = v := of_decide_eq_true ha
      exact decide_eq_true (by rw [this]; exact h))]
  rfl

theorem mem_addPost (e : ZEntry) (st : ZSet) (p t : Int) (h : e ∈ addPost st p t) :
    e ∈ insertRanked ⟨p, t⟩ (st.filter (fun x => x.member ≠ p)) := by
  rw [addPost, zremRank_eq_drop] at h
  exact List.mem_of_mem_drop h

theorem zscore_addPost_self (st : ZSet) (p t sc : Int)
    (h : zscore (addPost st p t) p = some sc) : sc = t := by
  rw [zscore] at h
  cases hf : (addPost st p t).find? (fun e => e.member = p) with
  | none => rw [hf] at h; cases h
  | some e =>
    rw [hf] at h
    simp only [Option.map_some', Option.some.injEq] at h
    have hmem := List.mem_of_find?_eq_some hf
    have hpm : e.member = p := by
      have h2 := List.find?_some hf
      simpa using h2
    rcases (mem_insertRanked e ⟨p, t⟩ _).mp (mem_addPost e st p t hmem) with rfl | hin
    · exact h.symm
    · exfalso
      have h3 := (List.mem_filter.mp hin).2
      simp at h3
      exact h3 hpm

theorem cacheOf_fanout_not_mem (cs : Caches) (fs : List Int) (pid ts u : Int)
    (hu : u ∉ fs) :
    cacheOf (fs.foldl (fun acc f => addPostFor acc f pid ts) cs) u = cacheOf cs u := by
  induction fs generalizing cs with
  | nil => rfl
  | cons f fs ih =>
    rw [List.foldl_cons, ih _ (fun hm => hu (List.mem_cons_of_mem f hm))]
    exact cacheOf_setCache_ne _ _ _ _ (fun hm => hu (hm ▸ List.mem_cons_self f fs))

theorem zscore_fanout_mem (cs : Caches) (fs : List Int) (pid ts u : Int)
    (hu : u ∈ fs) (sc : Int)
    (h : zscore (cacheOf (fs.foldl (fun acc f => addPostFor acc f pid ts) cs) u) pid
      = some sc) :
    sc = ts := by
  induction fs generalizing cs with
  | nil => cases hu
  | cons f fs ih =>
    rw [List.foldl_cons] at h
    by_cases hmem : u ∈ fs
    · exact ih _ hmem h
    · have huf : u = f := by
        rcases List.mem_cons.mp hu with h1 | h1
        · exact h1
        · exact absurd h1 hmem
      subst huf
      rw [cacheOf_fanout_not_mem _ _ _ _ _ hmem, addPostFor, cacheOf_setCache_self] at h
      exact zscore_addPost_self _ _ _ _ h

theorem mem_insertPostDesc (a p : PostRow) (l : List PostRow) :
    a ∈ insertPostDesc p l ↔ a = p ∨ a ∈ l := by
  induction l with
  | nil => simp [insertPostDesc]
  | cons x xs ih =>
    rw [insertPostDesc]
    split
    · simp
    · simp only [List.mem_cons, ih]
      tauto

theorem mem_sortPostsDesc (a : PostRow) (l : List PostRow) :
    a ∈ sortPostsDesc l ↔ a ∈ l := by
  rw [sortPostsDesc]
  induction l with
  | nil => simp
  | cons x xs ih =>
    rw [List.foldr_cons, mem_insertPostDesc]
    simp [ih]

theorem handleMessages_foldl_acked (handlerResult : FeedEvent → Except String Unit)
    (msgs : List Message) (acc : BatchOutcome) :
    (msgs.foldl
      (fun out msg =>
        match handlerResult msg.event with
        | .error _ => ⟨out.acked ++ [msg.id], out.failedHandler ++ [msg.id]⟩
        | .ok _ => ⟨out.acked ++ [msg.id], out.failedHandler⟩)
      acc).acked = acc.acked ++ msgs.map (·.id) := by
  induction msgs generalizing acc with
  | nil => simp
  | cons m ms ih =>
    rw [List.foldl_cons, ih]
    cases handlerResult m.event <;> simp

/-! ### Claim theorems -/

theorem getFeedService_cursor_empty (db : FeedDB) (cacheSt : ZSet) (userID : Int)
    (c : String) (limit0 : Int) (sc : ℚ) (pid : Int)
    (hex : cacheExists cacheSt = true)
    (hparse : parseFeedCursor c = some (sc, pid))
    (hempty : getFeedEntries cacheSt (some sc)
      (if limit0 ≤ 0 then 10 else if 50 < limit0 then 50 else limit0) = []) :
    getFeedService db cacheSt userID (some c) limit0 = some ⟨[], none, false⟩ := by
  simp only [getFeedService, hex, if_true, hparse, Option.map_some', hempty,
    List.isEmpty_nil, if_true]

/-- Claim C1: the spec's primary-store fallback for a cursor request whose
cache read is empty does not exist in the code; `GetFeed` returns an empty
feed response instead.  Here viewer 404 follows author 1; the cache holds
only post 10 (score 1000); the cursor `10:1000` sits at the bottom of the
cache; post 5 (created at 900) is a live, older post of the followed
author, so the spec's fallback query would return it — but the service
returns an empty page with `hasMore = false`. -/
theorem getFeed_empty_cache_read_returns_empty_feed :
    getFeedService ⟨[⟨5, 1, 900, false⟩, ⟨10, 1, 1000, false⟩], [(404, 1)]⟩
        [⟨10, 1000⟩] 404 (some "10:1000") 10 = some ⟨[], none, false⟩ ∧
    specFeedFallback ⟨[⟨5, 1, 900, false⟩, ⟨10, 1, 1000, false⟩], [(404, 1)]⟩
        404 1000 10 10 = [⟨5, 1, 900, false⟩] := by
  constructor
  · have hr : roundSix (1000 : ℚ) = (1000 : ℚ) := by
      have h := roundSix_intCast 1000
      norm_num at h
      exact h
    have hempty : getFeedEntries [(⟨10, 1000⟩ : ZEntry)] (some (1000 : ℚ))
        (if (10 : Int) ≤ 0 then 10 else if 50 < (10 : Int) then 50 else 10) = [] := by
      norm_num
      rw [getFeedEntries, zrevRangeByScoreLt, hr]
      decide
    exact getFeedService_cursor_empty _ _ _ _ _ (1000 : ℚ) 10 rfl (by decide) hempty
  · rfl

/-- Claim C2 counterexample: a delivered message whose handler returns an
error is still acknowledged by `Manager.handleMessages` ("Still ACK to
prevent infinite retry loops"), refuting the claim that the worker does
not ack on transient handler failure. -/
theorem handleMessages_acks_failed_message :
    (handleMessages (fun _ => Except.error "transient failure")
        [⟨"1700000000000-0", NewPostCreatedEvent 100 1 1700000000⟩]).failedHandler
      = ["1700000000000-0"] ∧
    (handleMessages (fun _ => Except.error "transient failure")
        [⟨"1700000000000-0", NewPostCreatedEvent 100 1 1700000000⟩]).acked
      = ["1700000000000-0"] := by
  constructor
  · rfl
  · rfl

/-- Claim C2 as amended: `Manager.handleMessages` acknowledges every
delivered message, whether or not its handler returned an error; a
handler failure is logged only. -/
theorem handleMessages_acks_every_message
    (handlerResult : FeedEvent → Except String Unit) (msgs : List Message) :
    (handleMessages handlerResult msgs).acked = msgs.map (·.id) := by
  rw [handleMessages, handleMessages_foldl_acked]
  simp

/-- Claim C3: after any sequence of cache mutations starting from an
absent feed, the entry count is at most the cap of 500; and the cap trim
of both `AddPost` and `WarmCache` removes only lowest-score entries: on
the state reached by any mutation sequence, every entry the trim removes
scores no higher than every entry it keeps. -/
theorem feed_cache_cap_and_trim (muts : List CacheMutation) (postID ts : Int)
    (posts : List PostScore) :
    cacheSize (runMutations muts) ≤ FeedCacheCap ∧
    trimKeepsHigher (zadd (runMutations muts) postID ts) = true ∧
    trimKeepsHigher (bulkZAdd (runMutations muts) posts) = true :=
  ⟨runMutations_length_le muts,
   trimKeepsHigher_of_sorted _ (zadd_sorted _ _ _ (runMutations_sorted muts)),
   trimKeepsHigher_of_sorted _ (bulkZAdd_sorted _ _ (runMutations_sorted muts))⟩

/-- Claim C4 counterexample: a post row created during second 100 whose
`post_created` event is constructed at second 101 (the event timestamp is
`time.Now().Unix()` at publish, not the row's `created_at`) is fanned out
with score 101, not the creation timestamp 100; a later cold-cache warm
re-scores the same entry to 100, so an existing entry's score does
change. -/
theorem fanout_score_differs_from_creation_time :
    zscore (cacheOf (handlePostCreated [] [] (NewPostCreatedEvent 9 1 101)) 1) 9
      = some 101 ∧
    (101 : Int) ≠ 100 ∧
    zscore (warmCache (cacheOf (handlePostCreated [] [] (NewPostCreatedEvent 9 1 101)) 1)
        (getFeedPostIDs ⟨[⟨9, 1, 100, false⟩], []⟩ [1] 500)) 9 = some 100 := by
  refine ⟨rfl, by decide, rfl⟩

/-- Claim C4 as amended: the fan-out path (`handlePostCreated`) scores
every recipient's entry with the event's timestamp — the clock reading
taken when the event was constructed, which need not equal the post row's
creation timestamp — while the warm path (`GetFeedPostIDs` feeding
`WarmCache`) scores entries with the post's `created_at` in whole
seconds; an upsert by either path overwrites an existing entry's score,
so entries are re-scored when the two timestamps differ. -/
theorem fanout_event_score_warm_creation_score (cs : Caches)
    (followers : List Int) (postID authorID now : Int)
    (db : FeedDB) (ids : List Int) (limit : Nat) :
    (∀ u ∈ followers ++ [authorID], ∀ sc : Int,
      zscore (cacheOf (handlePostCreated cs followers
          (NewPostCreatedEvent postID authorID now)) u) postID = some sc →
      sc = now) ∧
    (∀ p ∈ getFeedPostIDs db ids limit, ∃ row ∈ db.posts,
      row.id = p.postID ∧ row.deleted = false ∧ p.timestamp = row.createdAt) := by
  constructor
  · intro u hu sc h
    rw [handlePostCreated] at h
    simp only [NewPostCreatedEvent] at h
    by_cases hua : u = authorID
    · subst hua
      rw [addPostFor, cacheOf_setCache_self] at h
      exact zscore_addPost_self _ _ _ _ h
    · have humem : u ∈ followers := by
        rcases List.mem_append.mp hu with h1 | h1
        · exact h1
        · simp at h1
          exact absurd h1 hua
      rw [addPostFor, cacheOf_setCache_ne _ _ _ _ hua] at h
      exact zscore_fanout_mem _ _ _ _ _ humem _ h
  · intro p hp
    rw [getFeedPostIDs] at hp
    split at hp
    · cases hp
    · obtain ⟨row, hrow, hrowp⟩ := List.mem_map.mp hp
      have hrow2 := List.mem_of_mem_take hrow
      have hrow3 := (mem_sortPostsDesc _ _).mp hrow2
      have hrow4 := List.mem_filter.mp hrow3
      have hdel : row.deleted = false := by
        have h2 := hrow4.2
        rw [Bool.and_eq_true] at h2
        rcases h2 with ⟨_, h2⟩
        revert h2
        cases row.deleted <;> simp
      exact ⟨row, hrow4.1, by rw [← hrowp], hdel, by rw [← hrowp]⟩

/-- Claim C4 amended-theorem witness at a concrete fan-out (author 1,
follower 2, post 9, event clock 101) and a concrete store (one live post
with creation time 100). -/
theorem fanout_event_score_warm_creation_score_witness :
    (∀ u ∈ ([2] ++ [1] : List Int), ∀ sc : Int,
      zscore (cacheOf (handlePostCreated [] [2]
          (NewPostCreatedEvent 9 1 101)) u) 9 = some sc →
      sc = 101) ∧
    (∀ p ∈ getFeedPostIDs ⟨[⟨9, 1, 100, false⟩], []⟩ [1] 500,
      ∃ row ∈ [(⟨9, 1, 100, false⟩ : PostRow)],
        row.id = p.postID ∧ row.deleted = false ∧ p.timestamp = row.createdAt) :=
  fanout_event_score_warm_creation_score [] [2] 9 1 101
    ⟨[⟨9, 1, 100, false⟩], []⟩ [1] 500

/-- Claim C5 counterexample: a delivered stream entry with no parseable
payload (here the `data` field is missing altogether) is skipped by the
read loop with `continue`, never returned to the worker and never
acknowledged, so it stays on the consumer's pending list — refuting the
claim that the worker acks it and it does not remain pending. -/
theorem malformed_message_not_acked :
    consumerRead (fun _ => some (NewPostCreatedEvent 100 1 1700000000))
        [⟨"1700000000000-0", [("type", "post_created")]⟩] = [] ∧
    pendingAfterBatch (fun _ => some (NewPostCreatedEvent 100 1 1700000000))
        [⟨"1700000000000-0", [("type", "post_created")]⟩] (fun _ => .ok ())
      = ["1700000000000-0"] := by
  constructor
  · rfl
  · rfl

/-- Claim C5 as amended: a delivered message whose payload does not parse
is logged and skipped without acknowledgement, and therefore remains on
the consumer's pending list after the batch (message ids in a batch are
distinct, as Redis stream ids are). -/
theorem malformed_message_skipped_and_pending
    (decode : String → Option FeedEvent)
    (handlerResult : FeedEvent → Except String Unit)
    (delivered : List RawMessage) (m : RawMessage) (hm : m ∈ delivered)
    (hnodup : (delivered.map (·.id)).Nodup)
    (hbad : ParseFeedEventM decode m.values = none) :
    m.id ∉ (handleMessages handlerResult (consumerRead decode delivered)).acked ∧
    m.id ∈ pendingAfterBatch decode delivered handlerResult := by
  have hack : (handleMessages handlerResult (consumerRead decode delivered)).acked
      = (consumerRead decode delivered).map (·.id) := by
    rw [handleMessages, handleMessages_foldl_acked]
    simp
  have hnot : m.id ∉ (consumerRead decode delivered).map (·.id) := by
    intro hmem
    obtain ⟨msg, hmsg, hmsgid⟩ := List.mem_map.mp hmem
    rw [consumerRead] at hmsg
    obtain ⟨raw, hraw, hrawsome⟩ := List.mem_filterMap.mp hmsg
    obtain ⟨e, he, hmsgeq⟩ : ∃ e, ParseFeedEventM decode raw.values = some e ∧
        msg = ⟨raw.id, e⟩ := by
      cases hpe : ParseFeedEventM decode raw.values with
      | none => rw [hpe] at hrawsome; cases hrawsome
      | some e =>
        rw [hpe] at hrawsome
        simp only [Option.map_some', Option.some.injEq] at hrawsome
        exact ⟨e, rfl, hrawsome.symm⟩
    have hid : raw.id = m.id := by rw [hmsgeq] at hmsgid; exact hmsgid
    have hrm : raw = m := List.inj_on_of_nodup_map hnodup hraw hm hid
    rw [hrm, hbad] at he
    cases he
  refine ⟨by rw [hack]; exact hnot, ?_⟩
  rw [pendingAfterBatch]
  apply List.mem_filter.mpr
  refine ⟨List.mem_map.mpr ⟨m, hm, rfl⟩, ?_⟩
  rw [hack]
  simpa using hnot

/-- Claim C5 amended-theorem witness: the concrete malformed entry of the
counterexample is unacked and still pending. -/
theorem malformed_message_skipped_and_pending_witness :
    "1700000000000-0" ∉ (handleMessages (fun _ => Except.ok ())
      (consumerRead (fun _ => some (NewPostCreatedEvent 100 1 1700000000))
        [⟨"1700000000000-0", [("type", "post_created")]⟩])).acked ∧
    "1700000000000-0" ∈ pendingAfterBatch
      (fun _ => some (NewPostCreatedEvent 100 1 1700000000))
      [⟨"1700000000000-0", [("type", "post_created")]⟩] (fun _ => Except.ok ()) :=
  malformed_message_skipped_and_pending _ _ _
    ⟨"1700000000000-0", [("type", "post_created")]⟩ (by simp) (by simp) rfl

/-- Claim C6 counterexample: the cursor `7:2.5` is not of the canonical
`<post-id>:<unix-seconds>` shape (the seconds part is not a decimal
integer), yet `parseFeedCursor` accepts it, because the seconds part is
parsed with `strconv.ParseFloat` — refuting the claim that every
non-canonical cursor is rejected. -/
theorem parseFeedCursor_accepts_noncanonical :
    isCanonicalCursor "7:2.5" = false ∧
    parseFeedCursor "7:2.5" = some ((5 : ℚ) / 2, 7) := by
  constructor
  · rfl
  · have h : parseFeedCursor "7:2.5" =
        some ((digitsVal ['2'] : ℚ) + (digitsVal ['5'] : ℚ) / (10 : ℚ) ^ (1 : ℕ), 7) := by
      rfl
    rw [h, show digitsVal ['2'] = 2 from rfl, show digitsVal ['5'] = 5 from rfl]
    norm_num

/-- Claim C6 as amended: every cursor of the canonical shape
`<digits>:<digits>` whose id fits in `int64` (and whose seconds stay in
the `float64`-exact range up to `2^53`) parses successfully to exactly the
encoded (seconds, id) pair; but the converse direction of the claim fails
— not every other shape is rejected (see the counterexample), since the
seconds position accepts any Go float literal. -/
theorem parseFeedCursor_canonical_ok (p0 p1 : List Char)
    (h0 : p0 ≠ []) (h0d : allDigits p0 = true)
    (h1 : p1 ≠ []) (h1d : allDigits p1 = true)
    (hid : (digitsVal p0 : Int) ≤ int64Max) (hsec : digitsVal p1 ≤ 2 ^ 53) :
    parseFeedCursor (String.mk (p0 ++ ':' :: p1)) =
      some (((digitsVal p1 : Nat) : ℚ), ((digitsVal p0 : Nat) : Int)) := by
  rw [parseFeedCursor]
  show (match splitCharsOnPred (fun c => c = ':') (p0 ++ ':' :: p1) with
    | [q0, q1] => do
      let i ← goParseInt64 q0
      let score ← goParseFloatDec q1
      pure (score, i)
    | _ => none) = some (((digitsVal p1 : Nat) : ℚ), ((digitsVal p0 : Nat) : Int))
  rw [splitCharsOnPred_sep _ _ _ ':'
      (fun c hc => digit_char_ne c ':' (allDigits_mem _ h0d c hc) (by decide)) (by decide),
    splitCharsOnPred_no_match _ _
      (fun c hc => digit_char_ne c ':' (allDigits_mem _ h1d c hc) (by decide))]
  simp [goParseInt64_digits p0 h0 h0d hid, goParseFloatDec_digits p1 h1 h1d]

/-- Claim C6 amended-theorem witness at the concrete canonical cursor
`7:25`. -/
theorem parseFeedCursor_canonical_ok_witness :
    parseFeedCursor (String.mk (['7'] ++ ':' :: ['2', '5'])) =
      some (((digitsVal ['2', '5'] : Nat) : ℚ), ((digitsVal ['7'] : Nat) : Int)) :=
  parseFeedCursor_canonical_ok ['7'] ['2', '5'] (by decide) (by decide) (by decide)
    (by decide) (by decide) (by decide)

/-- Claim C7: `Follow` rejects a self-follow with the invalid-argument
error; on an already-existing edge it fails with the conflict error and
publishes nothing (the transaction is rolled back, leaving the store
unchanged); and only when the edge is newly inserted — committed together
with both counter increments — does it publish the single `user_followed`
event. -/
theorem follow_service_behavior (db : AppDB) (followerID followeeID now : Int) :
    (followerID = followeeID →
      followService db followerID followeeID now = .error .cannotFollowSelf) ∧
    (followerID ≠ followeeID → (userGetByID db followeeID).isSome = true →
      (followerID, followeeID) ∈ db.follows →
      followService db followerID followeeID now = .error .alreadyFollowing) ∧
    (followerID ≠ followeeID → (userGetByID db followeeID).isSome = true →
      (followerID, followeeID) ∉ db.follows →
      followService db followerID followeeID now =
        .ok (bumpFollowingCount
              (bumpFollowerCount
                { db with follows := db.follows ++ [(followerID, followeeID)] }
                followeeID 1)
              followerID 1,
            [NewUserFollowedEvent followerID followeeID now])) := by
  refine ⟨?_, ?_, ?_⟩
  · intro h
    rw [followService, if_pos h]
  · intro h1 h2 h3
    obtain ⟨u, hu⟩ := Option.isSome_iff_exists.mp h2
    rw [followService, if_neg h1, hu]
    simp [followCreate, h3]
  · intro h1 h2 h3
    obtain ⟨u, hu⟩ := Option.isSome_iff_exists.mp h2
    rw [followService, if_neg h1, hu]
    simp [followCreate, h3]

/-- Claim C7 witness: with users 1 and 2 and no edges, a self-follow is
rejected, a duplicate edge (store with edge (1,2)) conflicts without
publishing, and a fresh follow commits and publishes one `user_followed`
event. -/
theorem follow_service_behavior_witness :
    followService ⟨[⟨1, 0, 0, 0⟩, ⟨2, 0, 0, 0⟩], [], []⟩ 1 1 50
      = .error .cannotFollowSelf ∧
    followService ⟨[⟨1, 0, 0, 0⟩, ⟨2, 0, 0, 0⟩], [(1, 2)], []⟩ 1 2 50
      = .error .alreadyFollowing ∧
    followService ⟨[⟨1, 0, 0, 0⟩, ⟨2, 0, 0, 0⟩], [], []⟩ 1 2 50
      = .ok (bumpFollowingCount
              (bumpFollowerCount
                { users := [⟨1, 0, 0, 0⟩, ⟨2, 0, 0, 0⟩],
                  follows := ([] : List (Int × Int)) ++ [(1, 2)],
                  posts := [] } 2 1) 1 1,
            [NewUserFollowedEvent 1 2 50]) :=
  ⟨(follow_service_behavior ⟨[⟨1, 0, 0, 0⟩, ⟨2, 0, 0, 0⟩], [], []⟩ 1 1 50).1 rfl,
   (follow_service_behavior ⟨[⟨1, 0, 0, 0⟩, ⟨2, 0, 0, 0⟩], [(1, 2)], []⟩ 1 2 50).2.1
     (by decide) (by decide) (by decide),
   (follow_service_behavior ⟨[⟨1, 0, 0, 0⟩, ⟨2, 0, 0, 0⟩], [], []⟩ 1 2 50).2.2
     (by decide) (by decide) (by decide)⟩

/-- Claim C8: deleting a post that does not exist or is already
soft-deleted fails with the not-found error; deleting a live post of
another owner fails with the forbidden error; in both failure cases the
transaction rolls back, so the result carries no state change and no
event; on success the deletion marker is set and the owner's post count
decremented in the same committed transaction, after which the single
`post_deleted` event is published. -/
theorem delete_post_behavior (db : AppDB) (postID userID now : Int) :
    ((∀ p ∈ db.posts, p.id = postID → p.deleted = true) →
      postServiceDelete db postID userID now = .error .postNotFound) ∧
    ((∃ p ∈ db.posts, p.id = postID ∧ p.deleted = false) →
     (∀ p ∈ db.posts, p.id = postID → p.userID ≠ userID) →
      postServiceDelete db postID userID now = .error .notPostOwner) ∧
    ((∃ p ∈ db.posts, p.id = postID ∧ p.userID = userID ∧ p.deleted = false) →
      postServiceDelete db postID userID now =
        .ok (bumpPostCount
              { db with posts := db.posts.map (fun p =>
                  if p.id = postID && p.userID = userID && !p.deleted then
                    { p with deleted := true } else p) }
              userID (-1),
            [NewPostDeletedEvent postID userID now])) := by
  refine ⟨?_, ?_, ?_⟩
  · intro hall
    have hfilter : (db.posts.filter
        (fun p : PostRow => p.id = postID && p.userID = userID && !p.deleted)) = [] := by
      rw [List.filter_eq_nil_iff]
      intro p hp hcon
      simp only [Bool.and_eq_true, decide_eq_true_eq, Bool.not_eq_true'] at hcon
      exact absurd (hall p hp hcon.1.1) (by rw [hcon.2]; simp)
    have hany : (db.posts.any (fun p : PostRow => p.id = postID && !p.deleted)) = false := by
      rw [List.any_eq_false]
      intro p hp hcon
      simp only [Bool.and_eq_true, decide_eq_true_eq, Bool.not_eq_true'] at hcon
      exact absurd (hall p hp hcon.1) (by rw [hcon.2]; simp)
    rw [postServiceDelete, postRepoDelete]
    simp [hfilter, hany]
  · intro hex hown
    obtain ⟨p0, hp0, hp0id, hp0del⟩ := hex
    have hfilter : (db.posts.filter
        (fun p : PostRow => p.id = postID && p.userID = userID && !p.deleted)) = [] := by
      rw [List.filter_eq_nil_iff]
      intro p hp hcon
      simp only [Bool.and_eq_true, decide_eq_true_eq, Bool.not_eq_true'] at hcon
      exact absurd hcon.1.2 (hown p hp hcon.1.1)
    have hany : (db.posts.any (fun p : PostRow => p.id = postID && !p.deleted)) = true := by
      rw [List.any_eq_true]
      exact ⟨p0, hp0, by simp [hp0id, hp0del]⟩
    rw [postServiceDelete, postRepoDelete]
    simp [hfilter, hany]
  · intro hex
    obtain ⟨p0, hp0, hp0id, hp0own, hp0del⟩ := hex
    have hne : (db.posts.filter
        (fun p : PostRow => p.id = postID && p.userID = userID && !p.deleted)).isEmpty
        = false := by
      have hmem : p0 ∈ db.posts.filter
          (fun p : PostRow => p.id = postID && p.userID = userID && !p.deleted) :=
        List.mem_filter.mpr ⟨hp0, by simp [hp0id, hp0own, hp0del]⟩
      cases hf : db.posts.filter
          (fun p : PostRow => p.id = postID && p.userID = userID && !p.deleted) with
      | nil => rw [hf] at hmem; cases hmem
      | cons a as => rfl
    rw [postServiceDelete, postRepoDelete]
    simp only [hne, Bool.false_eq_true, if_false]

/-- Claim C8 witness: in a store where post 9 belongs to user 1 and post 8
(user 2) is already deleted, deleting post 8 is not-found, user 2 deleting
post 9 is forbidden, and user 1 deleting post 9 commits the marker and
count update and publishes `post_deleted`. -/
theorem delete_post_behavior_witness :
    postServiceDelete ⟨[⟨1, 0, 0, 1⟩, ⟨2, 0, 0, 0⟩], [],
        [⟨9, 1, 100, false⟩, ⟨8, 2, 100, true⟩]⟩ 8 2 60 = .error .postNotFound ∧
    postServiceDelete ⟨[⟨1, 0, 0, 1⟩, ⟨2, 0, 0, 0⟩], [],
        [⟨9, 1, 100, false⟩, ⟨8, 2, 100, true⟩]⟩ 9 2 60 = .error .notPostOwner ∧
    postServiceDelete ⟨[⟨1, 0, 0, 1⟩, ⟨2, 0, 0, 0⟩], [],
        [⟨9, 1, 100, false⟩, ⟨8, 2, 100, true⟩]⟩ 9 1 60 =
      .ok (bumpPostCount
            { users := [⟨1, 0, 0, 1⟩, ⟨2, 0, 0, 0⟩], follows := [],
              posts := ([⟨9, 1, 100, false⟩, ⟨8, 2, 100, true⟩] :
                  List PostRow).map (fun p =>
                if p.id = 9 && p.userID = 1 && !p.deleted then
                  { p with deleted := true } else p) } 1 (-1),
          [NewPostDeletedEvent 9 1 60]) :=
  ⟨(delete_post_behavior ⟨[⟨1, 0, 0, 1⟩, ⟨2, 0, 0, 0⟩], [],
      [⟨9, 1, 100, false⟩, ⟨8, 2, 100, true⟩]⟩ 8 2 60).1 (by decide),
   (delete_post_behavior ⟨[⟨1, 0, 0, 1⟩, ⟨2, 0, 0, 0⟩], [],
      [⟨9, 1, 100, false⟩, ⟨8, 2, 100, true⟩]⟩ 9 2 60).2.1
     ⟨⟨9, 1, 100, false⟩, by decide, by decide, by decide⟩ (by decide),
   (delete_post_behavior ⟨[⟨1, 0, 0, 1⟩, ⟨2, 0, 0, 0⟩], [],
      [⟨9, 1, 100, false⟩, ⟨8, 2, 100, true⟩]⟩ 9 1 60).2.2
     ⟨⟨9, 1, 100, false⟩, by decide, by decide, by decide, by decide⟩⟩

/-- Claim C9 counterexample: with limit 0 and no cursor, the cache read
issues `ZREVRANGE key 0 -1`, which returns the whole set — one entry here
— exceeding the requested limit of 0, so the claim does not hold for
every limit. -/
theorem getFeedEntries_zero_limit_excess :
    (getFeedEntries (runMutations [CacheMutation.add 7 100]) none 0).length = 1 ∧
    ¬((getFeedEntries (runMutations [CacheMutation.add 7 100]) none 0).length ≤ 0) := by
  constructor
  · rfl
  · decide

/-- Claim C9 as amended: for every positive limit `k`, on any reachable
cache state the range read returns at most `k` entries, each carrying its
post id and score; with a cursor score `s` every returned entry's score
is strictly below `s`; and the returned scores are non-increasing. -/
theorem getFeedEntries_bounded_strict_sorted (muts : List CacheMutation)
    (cursorScore : Option ℚ) (limit : Int) (hl : 1 ≤ limit) :
    (getFeedEntries (runMutations muts) cursorScore limit).length ≤ limit.toNat ∧
    (∀ s : ℚ, cursorScore = some s →
      ∀ e ∈ getFeedEntries (runMutations muts) cursorScore limit, (e.score : ℚ) < s) ∧
    (getFeedEntries (runMutations muts) cursorScore limit).Pairwise
      (fun a b => b.score ≤ a.score) := by
  have hsorted := runMutations_sorted muts
  have hrev : (runMutations muts).reverse.Pairwise (fun a b => b.score ≤ a.score) := by
    rw [List.pairwise_reverse]
    exact hsorted
  cases cursorScore with
  | none =>
    have hred : getFeedEntries (runMutations muts) none limit
        = (runMutations muts).reverse.take ((limit - 1).toNat + 1) := by
      rw [getFeedEntries, zrevRangeFrom0]
      rw [if_neg (by omega), if_neg (by omega)]
    refine ⟨?_, ?_, ?_⟩
    · rw [hred]
      have := List.length_take_le ((limit - 1).toNat + 1) (runMutations muts).reverse
      omega
    · intro s hs
      cases hs
    · rw [hred]
      exact List.Pairwise.sublist (List.take_sublist _ _) hrev
  | some s =>
    have hred : getFeedEntries (runMutations muts) (some s) limit
        = ((runMutations muts).reverse.filter
            (fun e => decide ((e.score : ℚ) < roundSix s))).take limit.toNat := by
      rw [getFeedEntries, zrevRangeByScoreLt]
      rw [if_neg (by omega)]
    refine ⟨?_, ?_, ?_⟩
    · rw [hred]
      exact List.length_take_le _ _
    · intro s2 hs2 e he
      have hs2e : s2 = s := by injection hs2 with h; exact h.symm
      subst hs2e
      rw [hred] at he
      have hef := List.mem_of_mem_take he
      have := (List.mem_filter.mp hef).2
      exact int_lt_of_lt_roundSix _ _ (of_decide_eq_true this)
    · rw [hred]
      exact List.Pairwise.sublist (List.take_sublist _ _) (List.Pairwise.filter _ hrev)

/-- Claim C9 amended-theorem witness: from mutations adding entries with
scores 50 and 60, a cursor read below 55 with limit 1 satisfies all three
properties. -/
theorem getFeedEntries_bounded_strict_sorted_witness :
    (getFeedEntries (runMutations [CacheMutation.add 5 50, CacheMutation.add 6 60])
        (some 55) 1).length ≤ (1 : Int).toNat ∧
    (∀ s : ℚ, (some (55 : ℚ)) = some s →
      ∀ e ∈ getFeedEntries (runMutations [CacheMutation.add 5 50, CacheMutation.add 6 60])
          (some 55) 1, (e.score : ℚ) < s) ∧
    (getFeedEntries (runMutations [CacheMutation.add 5 50, CacheMutation.add 6 60])
        (some 55) 1).Pairwise (fun a b => b.score ≤ a.score) :=
  getFeedEntries_bounded_strict_sorted [CacheMutation.add 5 50, CacheMutation.add 6 60]
    (some 55) 1 (by decide)

/-- Claim C10: for every `int64` post id and every non-negative integer
score exactly representable as a `float64`, parsing the cursor produced by
`formatFeedCursor` recovers exactly the (score, id) pair.  (The
representability bound keeps the statement inside the regime where the
exact rational embedding and Go's `float64` round-trip agree.) -/
theorem feed_cursor_roundtrip (id : Int) (n : Nat)
    (hlo : int64Min ≤ id) (hhi : id ≤ int64Max) (hn : fitsFloat64 n) :
    parseFeedCursor (formatFeedCursor (n : ℚ) id) = some ((n : ℚ), id) :=
  parse_format_roundtrip id n hlo hhi

/-- Claim C10 witness at id 314 and score 1700000000 (a whole-second Unix
timestamp, exactly representable). -/
theorem feed_cursor_roundtrip_witness :
    parseFeedCursor (formatFeedCursor ((1700000000 : Nat) : ℚ) 314) =
      some (((1700000000 : Nat) : ℚ), 314) :=
  feed_cursor_roundtrip 314 1700000000 (by decide) (by decide)
    ⟨1700000000, 0, by decide, by decide, by decide⟩

end FeedModel
